import Mathlib

set_option linter.unusedVariables false

/-! Formal model of obsidian-link (src/main.rs): the rule-driven URL dispatch
engine and the note-synthesis pipeline.  Characters are Unicode scalar values
(Lean Char); Rust's Unicode classification and case functions are modelled on
their ASCII fragment.  External collaborators are explicit parameters: regex
compilation/matching is an oracle argument, the wall clock value of today() is
a parameter, and filesystem effects are modelled by explicit state passing
with an outcome oracle for the fallible operations. -/

/-- Rule from the YAML config (struct Link, main.rs). -/
structure Link where
  name : String
  regex : String
  resolution : String
  folder : String
deriving DecidableEq

/-- Frontmatter overrides from the YAML config (struct Frontmatter, main.rs). -/
structure Frontmatter where
  date : Option String
  day : Option String
  time : Option String
  tags : Option (List String)
  url : Option String
  author : Option String
deriving DecidableEq

/-- Configuration (struct Config, main.rs); the vault PathBuf is modelled as a
string path. -/
structure Config where
  vault : String
  frontmatter : Frontmatter
  links : List Link
deriving DecidableEq

/-- Classified link (enum LinkType, main.rs). -/
inductive LinkType where
  | Shorts (url folder : String) (width height : Nat)
  | YouTube (url folder : String) (width height : Nat)
  | WebLink (url folder : String) (width height : Nat)
deriving DecidableEq

/-- The static RESOLUTIONS table (main.rs); the HashMap is modelled as an
association list with pairwise distinct keys. -/
def RESOLUTIONS : List (String × (Nat × Nat)) :=
  [("nHD", (640, 360)), ("FWVGA", (854, 480)), ("qHD", (960, 540)),
   ("SD", (1280, 720)), ("WXGA", (1366, 768)), ("HD+", (1600, 900)),
   ("FHD", (1920, 1080)), ("WQHD", (2560, 1440)), ("QHD+", (3200, 1800)),
   ("4K", (3840, 2160)), ("5K", (5120, 2880)), ("8K", (7680, 4320)),
   ("16K", (15360, 8640))]

/-- The static SHORTS_RESOLUTIONS table (main.rs). -/
def SHORTS_RESOLUTIONS : List (String × (Nat × Nat)) :=
  [("480p", (480, 854)), ("720p", (720, 1280)), ("1080p", (1080, 1920)),
   ("1440p", (1440, 2560)), ("2160p", (2160, 3840))]

/-- HashMap::get modelled on the association list. -/
def lookupRes (table : List (String × (Nat × Nat))) (key : String) : Option (Nat × Nat) :=
  (table.find? (fun p => p.1 == key)).map (fun p => p.2)

/-- get_resolution (main.rs): finds the first configured link whose name equals
link_name and looks its resolution key up in the table selected by link_name. -/
def get_resolution (link_name : String) (config : Config) : Except String (Nat × Nat) :=
  match config.links.find? (fun l => l.name == link_name) with
  | none => Except.error ("Link type '" ++ link_name ++ "' not found in config")
  | some l =>
    if link_name == "shorts" then
      match lookupRes SHORTS_RESOLUTIONS l.resolution with
      | some wh => Except.ok wh
      | none => Except.error "Resolution not found for shorts"
    else
      match lookupRes RESOLUTIONS l.resolution with
      | some wh => Except.ok wh
      | none => Except.error ("Resolution not found for " ++ link_name)

/-- The match over link.name.as_str() in LinkType::from_url (main.rs). -/
def classify_name (name url folder : String) (w h : Nat) : LinkType :=
  if name == "shorts" then LinkType.Shorts url folder w h
  else if name == "youtube" then LinkType.YouTube url folder w h
  else LinkType.WebLink url folder w h

/-- The scanning loop of LinkType::from_url (main.rs), with the mutable
default_link accumulator made explicit.  Regex compilation and matching
(Regex::new / is_match) is the oracle compile: compile pat = none models a
pattern that fails to compile (the ? operator aborts the loop), and
compile pat = some m models a compiled regex with match function m. -/
def from_url_loop (compile : String → Option (String → Bool)) (url : String)
    (config : Config) : List Link → Option LinkType → Except String LinkType
  | [], dflt =>
    match dflt with
    | some d => Except.ok d
    | none => Except.error "Invalid URL format"
  | link :: rest, dflt =>
    match compile link.regex with
    | none => Except.error ("Invalid regex: " ++ link.regex)
    | some m =>
      if m url then
        if link.name == "default" then
          from_url_loop compile url config rest
            (some (LinkType.WebLink url link.folder 0 0))
        else
          match get_resolution link.name config with
          | Except.error e => Except.error e
          | Except.ok wh => Except.ok (classify_name link.name url link.folder wh.1 wh.2)
      else from_url_loop compile url config rest dflt

/-- LinkType::from_url (main.rs). -/
def from_url (compile : String → Option (String → Bool)) (url : String)
    (config : Config) : Except String LinkType :=
  from_url_loop compile url config config.links none

/-- When every remaining rule compiles and fails to match, the loop returns the
remembered default if one was captured and the "Invalid URL format" error
otherwise. -/
theorem from_url_loop_no_match (compile : String → Option (String → Bool))
    (url : String) (config : Config) (ls : List Link) (dflt : Option LinkType)
    (h : ∀ l ∈ ls, ∃ m, compile l.regex = some m ∧ m url = false) :
    from_url_loop compile url config ls dflt =
      match dflt with
      | some d => Except.ok d
      | none => Except.error "Invalid URL format" := by
  induction ls generalizing dflt with
  | nil => rfl
  | cons a as ih =>
    obtain ⟨m, hm, hf⟩ := h a (List.mem_cons_self a as)
    have hrest : ∀ l ∈ as, ∃ m, compile l.regex = some m ∧ m url = false :=
      fun l hl => h l (List.mem_cons_of_mem a hl)
    simp only [from_url_loop, hm, hf]
    exact ih dflt hrest

/-- An empty set of frontmatter overrides, used in concrete instances. -/
def fmNone : Frontmatter := ⟨none, none, none, none, none, none⟩

/-- A concrete regex-compilation oracle used in concrete instances: every
pattern compiles, and a compiled pattern matches exactly the strings equal to
it (the behaviour of the regex crate on the anchored literal patterns used in
the concrete rule tables below). -/
def compileLit : String → Option (String → Bool) :=
  fun pat => some (fun s => s == pat)

/-- C5: for every rule table containing no rule named "default" and every URL
matched by no rule's pattern, classification returns the "Invalid URL format"
(InvalidInput) error rather than any ClassifiedLink. -/
theorem classify_no_match_no_default_fails (compile : String → Option (String → Bool))
    (url : String) (config : Config)
    (hnd : ∀ l ∈ config.links, l.name ≠ "default")
    (hnm : ∀ l ∈ config.links, ∃ m, compile l.regex = some m ∧ m url = false) :
    from_url compile url config = Except.error "Invalid URL format" :=
  from_url_loop_no_match compile url config config.links none hnm

/-- A one-rule table with no default rule, for the C5 witness. -/
def cfgC5 : Config := ⟨"vault", fmNone, [⟨"site", "A", "FHD", "folder"⟩]⟩

/-- C5 witness: concrete instance of classify_no_match_no_default_fails. -/
theorem classify_no_match_no_default_fails_witness :
    from_url compileLit "B" cfgC5 = Except.error "Invalid URL format" :=
  classify_no_match_no_default_fails compileLit "B" cfgC5
    (by intro l hl; simp only [cfgC5] at hl; simp at hl; subst hl; decide)
    (by
      intro l hl
      simp only [cfgC5] at hl; simp at hl; subst hl
      exact ⟨_, rfl, rfl⟩)

/-- Skipping an initial segment of rules that compile and do not match leaves
the loop state unchanged. -/
theorem from_url_loop_skip (compile : String → Option (String → Bool))
    (url : String) (config : Config) (pre ls : List Link) (dflt : Option LinkType)
    (h : ∀ l ∈ pre, ∃ m, compile l.regex = some m ∧ m url = false) :
    from_url_loop compile url config (pre ++ ls) dflt
      = from_url_loop compile url config ls dflt := by
  induction pre with
  | nil => rfl
  | cons a as ih =>
    obtain ⟨m, hm, hf⟩ := h a (List.mem_cons_self a as)
    simp only [List.cons_append, from_url_loop, hm, hf]
    exact ih (fun l hl => h l (List.mem_cons_of_mem a hl))

/-- Reaching the first matching non-default rule: rules before it that either
do not match or are named "default" cannot prevent it from deciding the
result, which is its classification or the error of its resolution lookup. -/
theorem from_url_loop_reach (compile : String → Option (String → Bool))
    (url : String) (config : Config) (post1 : List Link) (r : Link)
    (post2 : List Link) (dflt : Option LinkType) (m : String → Bool)
    (h1 : ∀ l ∈ post1, ∃ m', compile l.regex = some m' ∧ (m' url = false ∨ l.name = "default"))
    (hrc : compile r.regex = some m) (hrm : m url = true) (hrn : r.name ≠ "default") :
    from_url_loop compile url config (post1 ++ r :: post2) dflt
      = match get_resolution r.name config with
        | Except.error e => Except.error e
        | Except.ok wh => Except.ok (classify_name r.name url r.folder wh.1 wh.2) := by
  induction post1 generalizing dflt with
  | nil =>
    have hb : (r.name == "default") = false := by
      simp only [beq_eq_false_iff_ne, ne_eq]; exact hrn
    simp [from_url_loop, hrc, hrm, hb]
  | cons a as ih =>
    obtain ⟨m', hm', hcase⟩ := h1 a (List.mem_cons_self a as)
    have has : ∀ l ∈ as, ∃ m', compile l.regex = some m' ∧ (m' url = false ∨ l.name = "default") :=
      fun l hl => h1 l (List.mem_cons_of_mem a hl)
    cases hmu : m' url with
    | false =>
      simp only [List.cons_append, from_url_loop, hm', hmu]
      exact ih dflt has
    | true =>
      have hdef : a.name = "default" := by
        rcases hcase with hf | hd
        · rw [hf] at hmu; cases hmu
        · exact hd
      have hb : (a.name == "default") = true := by simp [hdef]
      simp only [List.cons_append, from_url_loop, hm', hmu, hb, if_true]
      exact ih (some (LinkType.WebLink url a.folder 0 0)) has

/-- Every width stored in the two resolution tables is positive. -/
theorem lookupRes_pos (table : List (String × (Nat × Nat))) (key : String)
    (wh : Nat × Nat) (ht : ∀ p ∈ table, 0 < p.2.1)
    (h : lookupRes table key = some wh) : 0 < wh.1 := by
  unfold lookupRes at h
  cases hf : table.find? (fun p => p.1 == key) with
  | none => rw [hf] at h; cases h
  | some p =>
    rw [hf] at h
    have hp : p ∈ table := List.mem_of_find?_eq_some hf
    have := ht p hp
    simp only [Option.map_some'] at h
    rw [← Option.some_inj.mp h]
    exact this

/-- get_resolution never returns a zero width: a lookup miss is an error, and
every entry of both tables has positive width. -/
theorem get_resolution_pos (name : String) (config : Config) (wh : Nat × Nat)
    (h : get_resolution name config = Except.ok wh) : 0 < wh.1 := by
  unfold get_resolution at h
  split at h
  · cases h
  · split at h
    · split at h
      · next wh' hl => cases h; exact lookupRes_pos SHORTS_RESOLUTIONS _ _ (by decide) hl
      · cases h
    · split at h
      · next wh' hl => cases h; exact lookupRes_pos RESOLUTIONS _ _ (by decide) hl
      · cases h

/-- If the loop returns the zero-size WebLink fallback, then no non-default
rule that compiled matched the URL. -/
theorem from_url_loop_zero_only_default (compile : String → Option (String → Bool))
    (url : String) (config : Config) (ls : List Link) (dflt : Option LinkType)
    (u f : String)
    (h : from_url_loop compile url config ls dflt = Except.ok (LinkType.WebLink u f 0 0)) :
    ∀ l ∈ ls, l.name ≠ "default" → ∀ m, compile l.regex = some m → m url = false := by
  induction ls generalizing dflt with
  | nil => intro l hl; cases hl
  | cons a as ih =>
    intro l hl hln m hm
    rcases List.mem_cons.mp hl with heq | hmem
    · subst heq
      by_contra hmu
      have hmu' : m url = true := by
        cases h' : m url with
        | false => exact absurd h' hmu
        | true => rfl
      have hb : (l.name == "default") = false := by
        simp only [beq_eq_false_iff_ne, ne_eq]; exact hln
      simp only [from_url_loop, hm, hmu', if_true, hb, Bool.false_eq_true,
        if_false] at h
      split at h
      · cases h
      · next wh hres =>
        have hpos : 0 < wh.1 := get_resolution_pos l.name config wh hres
        unfold classify_name at h
        split at h
        · cases h
        · split at h
          · cases h
          · injection h with h'
            injection h' with e1 e2 e3 e4
            omega
    · cases hca : compile a.regex with
      | none =>
        simp only [from_url_loop, hca] at h
        exact Except.noConfusion h
      | some ma =>
        cases hmu : ma url with
        | false =>
          simp only [from_url_loop, hca, hmu, Bool.false_eq_true, if_false] at h
          exact ih dflt h l hmem hln m hm
        | true =>
          by_cases hb : (a.name == "default") = true
          · simp only [from_url_loop, hca, hmu, if_true, hb] at h
            exact ih _ h l hmem hln m hm
          · simp only [from_url_loop, hca, hmu, if_true, Bool.not_eq_true] at h
            rw [(by simpa using hb : (a.name == "default") = false)] at h
            simp only [Bool.false_eq_true, if_false] at h
            split at h
            · cases h
            · next wh hres =>
              have hpos : 0 < wh.1 := get_resolution_pos a.name config wh hres
              unfold classify_name at h
              split at h
              · cases h
              · split at h
                · cases h
                · exfalso
                  injection h with h'
                  injection h' with e1 e2 e3 e4
                  omega

/-- C1: a match on a rule named "default" does not terminate the scan: the
dispatcher records the WebLink fallback with width 0 and height 0 and keeps
scanning (a); if a later non-default rule also matches (its resolution key
resolving), that rule's classification is returned instead of the default's
(b); the recorded default is returned when no later rule matches (c), and the
zero-size fallback is returned only when no compiled non-default rule in the
table matches the URL (d). -/
theorem default_rule_deferred (compile : String → Option (String → Bool))
    (url : String) (config : Config) (pre post : List Link) (d : Link)
    (dm : String → Bool)
    (hsplit : config.links = pre ++ d :: post)
    (hname : d.name = "default")
    (hdc : compile d.regex = some dm) (hdm : dm url = true)
    (hpre : ∀ l ∈ pre, ∃ m, compile l.regex = some m ∧ m url = false) :
    from_url compile url config
      = from_url_loop compile url config post (some (LinkType.WebLink url d.folder 0 0))
    ∧ (∀ post1 r post2 m w h, post = post1 ++ r :: post2 → r.name ≠ "default" →
        compile r.regex = some m → m url = true →
        (∀ l ∈ post1, ∃ m', compile l.regex = some m' ∧ (m' url = false ∨ l.name = "default")) →
        get_resolution r.name config = Except.ok (w, h) →
        from_url compile url config = Except.ok (classify_name r.name url r.folder w h))
    ∧ ((∀ l ∈ post, ∃ m', compile l.regex = some m' ∧ m' url = false) →
        from_url compile url config = Except.ok (LinkType.WebLink url d.folder 0 0))
    ∧ (∀ u f, from_url compile url config = Except.ok (LinkType.WebLink u f 0 0) →
        ∀ l ∈ config.links, l.name ≠ "default" → ∀ m, compile l.regex = some m → m url = false) := by
  have hb : (d.name == "default") = true := by simp [hname]
  have ha : from_url compile url config
      = from_url_loop compile url config post (some (LinkType.WebLink url d.folder 0 0)) := by
    unfold from_url
    rw [hsplit, from_url_loop_skip compile url config pre (d :: post) none hpre]
    simp only [from_url_loop, hdc, hdm, hb, if_true]
  refine ⟨ha, ?_, ?_, ?_⟩
  · intro post1 r post2 m w h hp hrn hrc hrm h1 hres
    rw [ha, hp, from_url_loop_reach compile url config post1 r post2 _ m h1 hrc hrm hrn,
      hres]
  · intro hnm
    rw [ha, from_url_loop_no_match compile url config post _ hnm]
  · intro u f hok
    exact from_url_loop_zero_only_default compile url config config.links none u f hok

/-- A rule table whose default rule appears before a matching youtube rule,
for the C1 witness. -/
def cfgC1 : Config :=
  ⟨"vault", fmNone, [⟨"default", "U", "nHD", "web"⟩, ⟨"youtube", "U", "FHD", "yt"⟩]⟩

/-- C1 witness: with the default rule first and a matching youtube rule after
it, the youtube classification wins. -/
theorem default_rule_deferred_witness :
    from_url compileLit "U" cfgC1 = Except.ok (classify_name "youtube" "U" "yt" 1920 1080) :=
  (default_rule_deferred compileLit "U" cfgC1 [] [⟨"youtube", "U", "FHD", "yt"⟩]
      ⟨"default", "U", "nHD", "web"⟩ (fun s => s == "U") rfl rfl rfl rfl
      (by intro l hl; cases hl)).2.1
    [] ⟨"youtube", "U", "FHD", "yt"⟩ [] (fun s => s == "U") 1920 1080 rfl
    (by decide) rfl rfl (by intro l hl; cases hl) rfl

/-- A rule table with two rules named "youtube" carrying different resolution
keys; the URL "B" matches only the second. -/
def cfgC3 : Config :=
  ⟨"vault", fmNone, [⟨"youtube", "A", "FHD", "f1"⟩, ⟨"youtube", "B", "4K", "f2"⟩]⟩

/-- C3 counterexample: the URL "B" is matched by the second rule, whose own
resolution key is "4K" (3840 x 2160), yet the dispatcher returns the size
looked up under the FIRST rule bearing the name "youtube", namely "FHD"
(1920 x 1080).  The returned size is therefore not obtained from the matched
rule's own resolution key, refuting the claim for tables where several rules
share a name. -/
theorem resolution_matched_rule_counterexample :
    from_url compileLit "B" cfgC3 = Except.ok (LinkType.YouTube "B" "f2" 1920 1080)
    ∧ lookupRes RESOLUTIONS "4K" = some (3840, 2160)
    ∧ ((1920, 1080) : Nat × Nat) ≠ (3840, 2160) :=
  ⟨rfl, rfl, by decide⟩

/-- C3 amended: when the first matching non-default rule has name n, the
returned size is obtained by looking up the resolution key of the FIRST rule
in the table named n (which is the matched rule's own key whenever rule names
are unique) in the table selected by n (vertical iff n = "shorts"); if that
key is absent the dispatcher fails with the resolution-not-found error and
never substitutes a zero size. -/
theorem resolution_uses_first_named (compile : String → Option (String → Bool))
    (url : String) (config : Config) (pre : List Link) (r : Link)
    (post : List Link) (m : String → Bool) (l0 : Link)
    (hsplit : config.links = pre ++ r :: post)
    (hrn : r.name ≠ "default")
    (hrc : compile r.regex = some m) (hrm : m url = true)
    (hpre : ∀ l ∈ pre, ∃ m', compile l.regex = some m' ∧ (m' url = false ∨ l.name = "default"))
    (hfind : config.links.find? (fun l => l.name == r.name) = some l0) :
    (∀ w h, lookupRes (if r.name == "shorts" then SHORTS_RESOLUTIONS else RESOLUTIONS)
        l0.resolution = some (w, h) →
      from_url compile url config = Except.ok (classify_name r.name url r.folder w h))
    ∧ (lookupRes (if r.name == "shorts" then SHORTS_RESOLUTIONS else RESOLUTIONS)
        l0.resolution = none →
      from_url compile url config
        = Except.error (if r.name == "shorts" then "Resolution not found for shorts"
            else "Resolution not found for " ++ r.name)) := by
  have hreach : from_url compile url config
      = match get_resolution r.name config with
        | Except.error e => Except.error e
        | Except.ok wh => Except.ok (classify_name r.name url r.folder wh.1 wh.2) := by
    unfold from_url
    rw [hsplit]
    exact from_url_loop_reach compile url config pre r post none m hpre hrc hrm hrn
  constructor
  · intro w h hl
    by_cases hs : (r.name == "shorts") = true
    · rw [if_pos hs] at hl
      have hres : get_resolution r.name config = Except.ok (w, h) := by
        simp [get_resolution, hfind, hs, hl]
      rw [hreach, hres]
    · rw [if_neg hs] at hl
      have hres : get_resolution r.name config = Except.ok (w, h) := by
        simp [get_resolution, hfind, hs, hl]
      rw [hreach, hres]
  · intro hl
    by_cases hs : (r.name == "shorts") = true
    · rw [if_pos hs] at hl
      have hres : get_resolution r.name config
          = Except.error "Resolution not found for shorts" := by
        simp [get_resolution, hfind, hs, hl]
      rw [hreach, hres, if_pos hs]
    · rw [if_neg hs] at hl
      have hres : get_resolution r.name config
          = Except.error ("Resolution not found for " ++ r.name) := by
        simp [get_resolution, hfind, hs, hl]
      rw [hreach, hres, if_neg hs]

/-- C3 amended witness: in cfgC3, the matched second rule resolves through the
first "youtube" rule's key "FHD". -/
theorem resolution_uses_first_named_witness :
    from_url compileLit "B" cfgC3 = Except.ok (classify_name "youtube" "B" "f2" 1920 1080) :=
  (resolution_uses_first_named compileLit "B" cfgC3 [⟨"youtube", "A", "FHD", "f1"⟩]
      ⟨"youtube", "B", "4K", "f2"⟩ [] (fun s => s == "B") ⟨"youtube", "A", "FHD", "f1"⟩
      rfl (by decide) rfl rfl
      (by
        intro l hl
        simp at hl; subst hl
        exact ⟨_, rfl, Or.inl rfl⟩)
      rfl).1
    1920 1080 rfl

/-- Characters with equal code points are equal. -/
theorem char_toNat_inj {a b : Char} (h : a.toNat = b.toNat) : a = b :=
  Char.eq_of_val_eq (UInt32.eq_of_toBitVec_eq (BitVec.eq_of_toNat_eq h))

/-- Code point of Char.ofNat on valid scalar values below the surrogate range. -/
theorem char_toNat_ofNat {n : Nat} (h : n < 55296) : (Char.ofNat n).toNat = n := by
  have hv : n.isValidChar := Or.inl h
  simp [Char.ofNat, hv, Char.ofNatAux, Char.toNat, UInt32.toNat]

/-- The apostrophe character stripped first by sanitize_tag. -/
def apostropheChar : Char := Char.ofNat 39

/-- Rust char::is_alphanumeric: the Unicode-wide predicate, modelled exactly
on the ASCII range together with the non-ASCII code points exercised below:
U+0130 (LATIN CAPITAL LETTER I WITH DOT ABOVE) is alphabetic in Unicode and
therefore true; U+0307 (COMBINING DOT ABOVE) is a combining mark, neither
alphabetic nor numeric, and therefore false (as is the rest of the model's
out-of-scope non-ASCII range). -/
def is_alphanumeric (c : Char) : Bool :=
  (48 ≤ c.toNat && c.toNat ≤ 57) || (65 ≤ c.toNat && c.toNat ≤ 90)
    || (97 ≤ c.toNat && c.toNat ≤ 122) || c.toNat == 304

/-- Rust char::is_whitespace, modelled on its ASCII fragment; this is exact on
the code points exercised below (neither U+0130 nor U+0307 is Unicode
whitespace). -/
def is_whitespace (c : Char) : Bool :=
  c.toNat == 32 || c.toNat == 9 || c.toNat == 10 || c.toNat == 11
    || c.toNat == 12 || c.toNat == 13

/-- One character's contribution to Rust str::to_lowercase.  Full Unicode
lowercasing maps one character to a character sequence; the model covers the
ASCII range together with the one-to-many special mapping
U+0130 to "i" followed by U+0307, and fixes the remaining characters. -/
def to_lowercase_char (c : Char) : List Char :=
  if 65 ≤ c.toNat && c.toNat ≤ 90 then [Char.ofNat (c.toNat + 32)]
  else if c.toNat = 304 then [Char.ofNat 105, Char.ofNat 775]
  else [c]

/-- Rust str::to_lowercase on a character list. -/
def to_lowercase (l : List Char) : List Char := l.flatMap to_lowercase_char

/-- The per-character closure of the .map in sanitize_tag (main.rs): keep
alphanumeric and whitespace characters, replace everything else by hyphen. -/
def sanMap (c : Char) : Char :=
  if is_alphanumeric c || is_whitespace c then c else '-'

/-- The .replace of spaces by hyphens in sanitize_tag (main.rs), per character. -/
def spaceHy (c : Char) : Char :=
  if c = ' ' then '-' else c

/-- sanitize_tag (main.rs): strip apostrophes, map every character that is
neither alphanumeric nor whitespace to a hyphen, replace spaces by hyphens,
and lowercase the result. -/
def sanitize_tag (s : String) : String :=
  String.mk (to_lowercase (((s.data.filter (fun c => c != apostropheChar)).map
    sanMap).map spaceHy))

/-- ASCII lowercasing per character: what to_lowercase_char does on the ASCII
range, where it is one-to-one. -/
def asciiLower (c : Char) : Char :=
  if 65 ≤ c.toNat && c.toNat ≤ 90 then Char.ofNat (c.toNat + 32) else c

/-- The per-character pipeline of sanitize_tag on ASCII input. -/
def tagPipeChar (c : Char) : Char := asciiLower (spaceHy (sanMap c))

/-- The code points produced by the sanitizing pipeline on ASCII input:
hyphen, non-space ASCII whitespace, digits, lowercase letters. -/
def tagStableNat (n : Nat) : Prop :=
  n = 45 ∨ (9 ≤ n ∧ n ≤ 13) ∨ (48 ≤ n ∧ n ≤ 57) ∨ (97 ≤ n ∧ n ≤ 122)

instance (n : Nat) : Decidable (tagStableNat n) := by
  unfold tagStableNat
  infer_instance

/-- On ASCII characters the pipeline lands in the stable set. -/
theorem tagPipe_stable (c : Char) (hc : c.toNat < 128) :
    tagStableNat (tagPipeChar c).toNat := by
  unfold tagPipeChar
  by_cases ha : is_alphanumeric c = true
  · have hr : (48 ≤ c.toNat ∧ c.toNat ≤ 57 ∨ 65 ≤ c.toNat ∧ c.toNat ≤ 90)
        ∨ 97 ≤ c.toNat ∧ c.toNat ≤ 122 := by
      have hr0 : ((48 ≤ c.toNat ∧ c.toNat ≤ 57 ∨ 65 ≤ c.toNat ∧ c.toNat ≤ 90)
          ∨ 97 ≤ c.toNat ∧ c.toNat ≤ 122) ∨ c.toNat = 304 := by
        simpa [is_alphanumeric, Bool.or_eq_true, Bool.and_eq_true,
          decide_eq_true_eq] using ha
      rcases hr0 with hr0 | hr0
      · exact hr0
      · omega
    have hm : sanMap c = c := by simp [sanMap, ha]
    have hsp : spaceHy c = c := by
      have : c ≠ ' ' := by
        intro he
        subst he
        revert hr
        decide
      simp [spaceHy, this]
    rw [hm, hsp]
    unfold asciiLower
    by_cases hu : (65 ≤ c.toNat && c.toNat ≤ 90) = true
    · rw [if_pos hu]
      have hu' : 65 ≤ c.toNat ∧ c.toNat ≤ 90 := by
        simpa [Bool.and_eq_true, decide_eq_true_eq] using hu
      rw [char_toNat_ofNat (by omega)]
      unfold tagStableNat
      omega
    · rw [if_neg hu]
      have hu' : ¬(65 ≤ c.toNat ∧ c.toNat ≤ 90) := by
        intro hcon
        exact hu (by simp [Bool.and_eq_true, decide_eq_true_eq]; omega)
      unfold tagStableNat
      omega
  · by_cases hw : is_whitespace c = true
    · have hr : ((((c.toNat = 32 ∨ c.toNat = 9) ∨ c.toNat = 10) ∨ c.toNat = 11)
          ∨ c.toNat = 12) ∨ c.toNat = 13 := by
        simpa [is_whitespace, Bool.or_eq_true, decide_eq_true_eq] using hw
      have hm : sanMap c = c := by simp [sanMap, hw]
      rw [hm]
      by_cases hs : c = ' '
      · subst hs
        decide
      · have hsp : spaceHy c = c := by simp [spaceHy, hs]
        rw [hsp]
        have h32 : c.toNat ≠ 32 := fun he => hs (char_toNat_inj (a := c) (b := ' ') he)
        have hlow : asciiLower c = c := by
          unfold asciiLower
          rw [if_neg]
          intro hcon
          have : 65 ≤ c.toNat ∧ c.toNat ≤ 90 := by
            simpa [Bool.and_eq_true, decide_eq_true_eq] using hcon
          omega
        rw [hlow]
        unfold tagStableNat
        omega
    · have hm : sanMap c = '-' := by simp [sanMap, ha, hw]
      rw [hm]
      decide

/-- The stable set lies below the ASCII bound. -/
theorem tagStable_lt (n : Nat) (h : tagStableNat n) : n < 128 := by
  unfold tagStableNat at h
  omega

/-- Characters in the stable set are fixed by every stage of the pipeline and
are not apostrophes. -/
theorem tagPipe_fixed (c : Char) (h : tagStableNat c.toNat) :
    sanMap c = c ∧ spaceHy c = c ∧ asciiLower c = c
      ∧ (c != apostropheChar) = true := by
  unfold tagStableNat at h
  have hne : (c != apostropheChar) = true := by
    have h39 : c.toNat ≠ 39 := by omega
    simp only [bne_iff_ne, ne_eq]
    intro he
    subst he
    exact h39 rfl
  have hm : sanMap c = c := by
    unfold sanMap
    rcases h with h | h | h | h
    · have : c = '-' := char_toNat_inj (a := c) (b := '-') (by rw [h]; rfl)
      subst this
      decide
    all_goals
      rw [if_pos]
      simp only [is_alphanumeric, is_whitespace, Bool.or_eq_true, Bool.and_eq_true,
        decide_eq_true_eq, beq_iff_eq]
      omega
  have hsp : spaceHy c = c := by
    unfold spaceHy
    rw [if_neg]
    intro he
    subst he
    revert h
    decide
  have hlow : asciiLower c = c := by
    unfold asciiLower
    rw [if_neg]
    intro hcon
    have : 65 ≤ c.toNat ∧ c.toNat ≤ 90 := by
      simpa [Bool.and_eq_true, decide_eq_true_eq] using hcon
    omega
  exact ⟨hm, hsp, hlow, hne⟩

/-- On ASCII characters str::to_lowercase is the one-to-one ASCII map. -/
theorem to_lowercase_ascii : ∀ (l : List Char), (∀ c ∈ l, c.toNat < 128) →
    to_lowercase l = l.map asciiLower
  | [], _ => rfl
  | a :: as, h => by
    have ha := h a (List.mem_cons_self a as)
    have hchar : to_lowercase_char a = [asciiLower a] := by
      unfold to_lowercase_char asciiLower
      by_cases hu : (65 ≤ a.toNat && a.toNat ≤ 90) = true
      · rw [if_pos hu, if_pos hu]
      · rw [if_neg hu, if_neg hu, if_neg]
        omega
    show to_lowercase_char a ++ to_lowercase as = asciiLower a :: as.map asciiLower
    rw [hchar, to_lowercase_ascii as (fun c hc => h c (List.mem_cons_of_mem a hc))]
    rfl

/-- Mapping a function that fixes every element of a list is the identity. -/
theorem map_id_of_fixed {f : Char → Char} : ∀ (l : List Char),
    (∀ c ∈ l, f c = c) → l.map f = l
  | [], _ => rfl
  | a :: as, h => by
    simp only [List.map_cons]
    rw [h a (List.mem_cons_self a as),
      map_id_of_fixed as (fun c hc => h c (List.mem_cons_of_mem a hc))]

/-- C4 counterexample: sanitize_tag is not idempotent on the code as written.
On "İ" (U+0130) the character is kept (it is alphanumeric), and lowercasing
expands it to "i" followed by the combining mark U+0307; a second pass maps
the combining mark — neither alphanumeric nor whitespace — to a hyphen,
giving "i-". -/
theorem sanitize_tag_not_idempotent_counterexample :
    sanitize_tag "İ" = String.mk [Char.ofNat 105, Char.ofNat 775]
    ∧ sanitize_tag (sanitize_tag "İ") = "i-"
    ∧ sanitize_tag (sanitize_tag "İ") ≠ sanitize_tag "İ" :=
  ⟨by decide, by decide, by decide⟩

/-- C4 amended: the tag sanitizer is a total function, and on every string of
ASCII characters sanitizing an already sanitized tag changes nothing;
idempotence on arbitrary Unicode input fails because lowercasing can expand a
kept character into a letter followed by a combining mark that the next pass
hyphenates. -/
theorem sanitize_tag_idempotent_ascii (t : String)
    (h : ∀ c ∈ t.data, c.toNat < 128) :
    sanitize_tag (sanitize_tag t) = sanitize_tag t := by
  have hfilter : ∀ c ∈ t.data.filter (fun c => c != apostropheChar), c.toNat < 128 :=
    fun c hc => h c (List.mem_of_mem_filter hc)
  have hmid : ∀ c ∈ ((t.data.filter (fun c => c != apostropheChar)).map sanMap).map
      spaceHy, c.toNat < 128 := by
    intro c hc
    obtain ⟨b, hb, rfl⟩ := List.mem_map.mp hc
    obtain ⟨a, ha, rfl⟩ := List.mem_map.mp hb
    have haa := hfilter a ha
    unfold sanMap spaceHy
    by_cases h1 : (is_alphanumeric a || is_whitespace a) = true
    · rw [if_pos h1]
      by_cases h2 : a = ' '
      · rw [if_pos h2]
        decide
      · rw [if_neg h2]
        exact haa
    · rw [if_neg h1, if_neg (by decide)]
      decide
  have h2 : sanitize_tag t
      = String.mk ((t.data.filter (fun c => c != apostropheChar)).map tagPipeChar) := by
    unfold sanitize_tag
    rw [to_lowercase_ascii _ hmid]
    simp only [List.map_map]
    rfl
  have hstable : ∀ c ∈ (t.data.filter (fun c => c != apostropheChar)).map tagPipeChar,
      tagStableNat c.toNat := by
    intro c hc
    obtain ⟨a, ha, rfl⟩ := List.mem_map.mp hc
    exact tagPipe_stable a (hfilter a ha)
  rw [h2]
  generalize hL : (t.data.filter (fun c => c != apostropheChar)).map tagPipeChar = L
    at hstable ⊢
  unfold sanitize_tag
  have hfL : L.filter (fun c => c != apostropheChar) = L :=
    List.filter_eq_self.mpr (fun c hc => (tagPipe_fixed c (hstable c hc)).2.2.2)
  rw [show (String.mk L).data = L from rfl, hfL,
    map_id_of_fixed L (fun c hc => (tagPipe_fixed c (hstable c hc)).1),
    map_id_of_fixed L (fun c hc => (tagPipe_fixed c (hstable c hc)).2.1),
    to_lowercase_ascii L (fun c hc => tagStable_lt _ (hstable c hc)),
    map_id_of_fixed L (fun c hc => (tagPipe_fixed c (hstable c hc)).2.2.1)]

/-- C4 amended witness: concrete ASCII instance of sanitize_tag_idempotent_ascii. -/
theorem sanitize_tag_idempotent_ascii_witness :
    sanitize_tag (sanitize_tag "Ab C-9!") = sanitize_tag "Ab C-9!" :=
  sanitize_tag_idempotent_ascii "Ab C-9!" (by decide)

/-- sanitize_filename (main.rs): keep only alphanumeric characters, whitespace
and hyphens. -/
def sanitize_filename (title : String) : String :=
  String.mk (title.data.filter (fun c => is_alphanumeric c || is_whitespace c || c == '-'))

/-- Two consecutive dots somewhere in the character list. -/
def hasDotDot : List Char → Bool
  | [] => false
  | [_] => false
  | a :: b :: rest => (a == '.' && b == '.') || hasDotDot (b :: rest)

/-- A list without dots has no double dot. -/
theorem hasDotDot_false : ∀ (l : List Char), (∀ c ∈ l, c ≠ '.') → hasDotDot l = false
  | [], _ => rfl
  | [_], _ => rfl
  | a :: b :: rest, h => by
    have ha : (a == '.') = false := by
      simp only [beq_eq_false_iff_ne, ne_eq]
      exact h a (List.mem_cons_self a (b :: rest))
    simp only [hasDotDot, ha, Bool.false_and, Bool.false_or]
    exact hasDotDot_false (b :: rest) (fun c hc => h c (List.mem_cons_of_mem a hc))

/-- C6: the filename sanitizer's output contains no path separators and no
".." substring, for every input title. -/
theorem sanitize_filename_no_traversal (title : String) :
    (sanitize_filename title).data.contains '/' = false
    ∧ (sanitize_filename title).data.contains '\\' = false
    ∧ (sanitize_filename title).data.contains '.' = false
    ∧ hasDotDot (sanitize_filename title).data = false := by
  have hmem : ∀ c ∈ (sanitize_filename title).data,
      (is_alphanumeric c || is_whitespace c || c == '-') = true := by
    intro c hc
    unfold sanitize_filename at hc
    exact (List.mem_filter.mp hc).2
  have hbad : ∀ b : Char, (is_alphanumeric b || is_whitespace b || b == '-') = false →
      (sanitize_filename title).data.contains b = false := by
    intro b hb
    cases hx : (sanitize_filename title).data.contains b with
    | false => rfl
    | true =>
      have hb' : List.elem b (sanitize_filename title).data = true := hx
      have hbm : b ∈ (sanitize_filename title).data := List.mem_of_elem_eq_true hb'
      rw [hmem b hbm] at hb
      cases hb
  have hdot : (sanitize_filename title).data.contains '.' = false := hbad '.' (by decide)
  refine ⟨hbad '/' (by decide), hbad '\\' (by decide), hdot, ?_⟩
  apply hasDotDot_false
  intro c hc he
  subst he
  have hp := hmem '.' hc
  revert hp
  decide

/-- The for-loop over tags in format_frontmatter (main.rs): one "  - tag" line
per sanitized tag, in order. -/
def tagLines : List String → String
  | [] => ""
  | t :: ts => "  - " ++ sanitize_tag t ++ "\n" ++ tagLines ts

/-- format_frontmatter (main.rs).  today() reads the wall clock in the fixed
timezone; its result (date, day, time) is passed as the parameter now. -/
def format_frontmatter (frontmatter : Frontmatter) (now : String × String × String)
    (url author : String) (tags : List String) : String :=
  let s0 := "---\n"
  let s1 := s0 ++ "date: " ++ frontmatter.date.getD now.1 ++ "\n"
  let s2 := s1 ++ "day: " ++ frontmatter.day.getD now.2.1 ++ "\n"
  let s3 := s2 ++ "time: " ++ frontmatter.time.getD now.2.2 ++ "\n"
  let s4 := if tags.isEmpty then s3 else s3 ++ "tags:\n" ++ tagLines tags
  let s5 := s4 ++ "url: " ++ url ++ "\n"
  let s6 := s5 ++ "author: " ++ author ++ "\n"
  s6 ++ "---\n\n"

/-- C7: the rendered frontmatter is a block delimited by "---" lines whose
fields appear in exactly the order date, day, time, tags (optional block),
url, author, and the tags block is present exactly when the tag sequence is
non-empty (the sanitized sequence is non-empty iff the input sequence is,
since sanitization is per-tag). -/
theorem format_frontmatter_structure (fm : Frontmatter) (now : String × String × String)
    (url author : String) (tags : List String) :
    format_frontmatter fm now url author tags
      = "---\n" ++ ("date: " ++ fm.date.getD now.1 ++ "\n")
        ++ ("day: " ++ fm.day.getD now.2.1 ++ "\n")
        ++ ("time: " ++ fm.time.getD now.2.2 ++ "\n")
        ++ (if tags = [] then "" else "tags:\n" ++ tagLines tags)
        ++ ("url: " ++ url ++ "\n")
        ++ ("author: " ++ author ++ "\n")
        ++ "---\n\n" := by
  cases tags with
  | nil =>
    simp only [format_frontmatter, List.isEmpty_nil, if_true, String.append_assoc,
      String.empty_append, String.append_empty]
  | cons a as =>
    simp only [format_frontmatter, List.isEmpty_cons, Bool.false_eq_true, if_false,
      reduceCtorEq, String.append_assoc]

/-- C2 (code bug): format_frontmatter ignores the url, author and tags
override fields entirely, rendering the passed-in (fetched) values instead:
the output never depends on those three override fields, and with
overrides.author = some "Alice" and fetched channel "Bob's Channel" the
rendered author line reads "Bob's Channel", not "Alice". -/
theorem frontmatter_overrides_ignored :
    (∀ (fm : Frontmatter) (now : String × String × String) (url author : String)
        (tags : List String),
      format_frontmatter fm now url author tags
        = format_frontmatter ⟨fm.date, fm.day, fm.time, none, none, none⟩ now url author tags)
    ∧ format_frontmatter ⟨none, none, none, none, none, some "Alice"⟩
        ("2024-01-01", "Mon", "10:00") "https://example.com" "Bob's Channel" []
      = "---\ndate: 2024-01-01\nday: Mon\ntime: 10:00\nurl: https://example.com\nauthor: Bob's Channel\n---\n\n" :=
  ⟨fun fm now url author tags => rfl, rfl⟩

/-- Filesystem state: created directories and files with contents. -/
structure FS where
  dirs : List String
  files : List (String × String)
deriving DecidableEq

/-- Outcome oracle for the three fallible filesystem operations performed by
create_markdown_file, in order: create_dir_all, File::create, write!. -/
structure IOOutcome where
  dirOk : Bool
  createOk : Bool
  writeOk : Bool
deriving DecidableEq

/-- Idempotent directory creation (create_dir_all). -/
def insertDir (d : String) (ds : List String) : List String :=
  if ds.contains d then ds else d :: ds

/-- Create-or-replace a file entry (File::create truncates, write! fills). -/
def setFile (k v : String) : List (String × String) → List (String × String)
  | [] => [(k, v)]
  | (k', v') :: rest => if k' == k then (k, v) :: rest else (k', v') :: setFile k v rest

/-- Lookup of a file's contents. -/
def getFile (files : List (String × String)) (k : String) : Option String :=
  (files.find? (fun p => p.1 == k)).map (fun p => p.2)

/-- shellexpand::tilde, with the home directory as an explicit parameter: a
leading bare tilde (alone or followed by a path separator) is replaced by the
home directory; all other paths pass through unchanged. -/
def expanduser (home path : String) : String :=
  match path.data with
  | [] => path
  | c :: rest =>
    if c = '~' ∧ (rest = [] ∨ rest.head? = some '/') then home ++ String.mk rest
    else path

/-- PathBuf::join on string paths. -/
def joinPath (a b : String) : String := a ++ "/" ++ b

/-- create_markdown_file (main.rs), with filesystem effects made explicit.
File::create truncates: it installs an empty file before the single write!
call, which is modelled as atomic, so a failed write leaves the truncated
empty file behind. -/
def create_markdown_file (o : IOOutcome) (home : String)
    (title description embed_code url author : String) (tags : List String)
    (vault_path folder : String) (frontmatter : Frontmatter)
    (now : String × String × String) (fs : FS) : Except String Unit × FS :=
  let vault_expanded := expanduser home vault_path
  let full_path := joinPath vault_expanded folder
  if o.dirOk = false then
    (Except.error ("Failed to create directory: " ++ full_path), fs)
  else
    let fs1 : FS := ⟨insertDir full_path fs.dirs, fs.files⟩
    let file_name := sanitize_filename title
    let file_path := joinPath full_path (file_name ++ ".md")
    if o.createOk = false then
      (Except.error ("Failed to create markdown file: " ++ file_path), fs1)
    else
      let fs2 : FS := ⟨fs1.dirs, setFile file_path "" fs1.files⟩
      let frontmatter_str := format_frontmatter frontmatter now url author tags
      let content := frontmatter_str ++ "\n" ++ embed_code ++ "\n\n## Description\n" ++ description
      if o.writeOk = false then
        (Except.error "Failed to write to markdown file", fs2)
      else
        (Except.ok (), ⟨fs2.dirs, setFile file_path content fs2.files⟩)

/-- The empty filesystem, for concrete instances. -/
def fsEmpty : FS := ⟨[], []⟩

/-- Re-setting a file overrides the previous contents. -/
theorem setFile_setFile (k v w : String) (l : List (String × String)) :
    setFile k v (setFile k w l) = setFile k v l := by
  induction l with
  | nil => simp [setFile]
  | cons p rest ih =>
    by_cases h : (p.1 == k) = true
    · simp [setFile, h]
    · simp [setFile, h, ih]

/-- C9 counterexample: with directory creation and file creation succeeding
and the write failing (for instance when the disk fills), the invocation
errors yet an empty note file is left on the filesystem, refuting the claim
that no partially-written or empty note file is left behind on any error
path. -/
theorem note_write_residue_counterexample :
    (create_markdown_file ⟨true, true, false⟩ "/home/u" "T" "D" "E" "http://u" "A"
        [] "v" "f" fmNone ("d", "a", "t") fsEmpty).1
      = Except.error "Failed to write to markdown file"
    ∧ (create_markdown_file ⟨true, true, false⟩ "/home/u" "T" "D" "E" "http://u" "A"
        [] "v" "f" fmNone ("d", "a", "t") fsEmpty).2.files
      = [("v/f/T.md", "")] :=
  ⟨rfl, by decide⟩

/-- C9 amended: on success the complete note (frontmatter + newline + embed +
"\n\n## Description\n" + description) is written at the computed path; on any
failure the file table is unchanged or carries only the created-but-empty note
file (the truncating File::create ran, the atomic write did not), and the only
possible directory residue is the created destination directory. -/
theorem create_markdown_file_residue (o : IOOutcome) (home : String)
    (title description embed_code url author : String) (tags : List String)
    (vault_path folder : String) (frontmatter : Frontmatter)
    (now : String × String × String) (fs : FS) :
    let result := create_markdown_file o home title description embed_code url author
      tags vault_path folder frontmatter now fs
    let full_path := joinPath (expanduser home vault_path) folder
    let file_path := joinPath full_path (sanitize_filename title ++ ".md")
    let content := format_frontmatter frontmatter now url author tags ++ "\n"
      ++ embed_code ++ "\n\n## Description\n" ++ description
    (result.1 = Except.ok () →
      result.2 = ⟨insertDir full_path fs.dirs, setFile file_path content fs.files⟩)
    ∧ (result.1 ≠ Except.ok () →
      result.2.files = fs.files ∨ result.2.files = setFile file_path "" fs.files)
    ∧ (result.2.dirs = fs.dirs ∨ result.2.dirs = insertDir full_path fs.dirs) := by
  cases o with
  | mk dirOk createOk writeOk =>
    cases dirOk with
    | false =>
      refine ⟨fun hok => ?_, fun _ => Or.inl rfl, Or.inl rfl⟩
      cases hok
    | true =>
      cases createOk with
      | false =>
        refine ⟨fun hok => ?_, fun _ => Or.inl rfl, Or.inr rfl⟩
        cases hok
      | true =>
        cases writeOk with
        | false =>
          refine ⟨fun hok => ?_, fun _ => Or.inr rfl, Or.inr rfl⟩
          cases hok
        | true =>
          refine ⟨fun _ => ?_, fun hne => absurd rfl hne, Or.inr rfl⟩
          simp [create_markdown_file, setFile_setFile]

/-- C9 witness: concrete instance of create_markdown_file_residue on the
failing-write outcome. -/
theorem create_markdown_file_residue_witness :
    (create_markdown_file ⟨true, true, false⟩ "/home/u" "T" "D" "E" "http://u" "A"
        [] "v" "f" fmNone ("d", "a", "t") fsEmpty).2.files = fsEmpty.files
    ∨ (create_markdown_file ⟨true, true, false⟩ "/home/u" "T" "D" "E" "http://u" "A"
        [] "v" "f" fmNone ("d", "a", "t") fsEmpty).2.files
      = setFile (joinPath (joinPath (expanduser "/home/u" "v") "f")
          (sanitize_filename "T" ++ ".md")) "" fsEmpty.files :=
  (create_markdown_file_residue ⟨true, true, false⟩ "/home/u" "T" "D" "E" "http://u" "A"
      [] "v" "f" fmNone ("d", "a", "t") fsEmpty).2.1 (by intro h; cases h)

/-- handle_weblink_url (main.rs): fixed placeholder metadata; the width and
height of the classification are ignored and the embed fragment is empty. -/
def handle_weblink_url (o : IOOutcome) (home url folder : String)
    (width height : Nat) (config : Config) (now : String × String × String)
    (fs : FS) : Except String Unit × FS :=
  create_markdown_file o home "Some Title" "Some Description" "" url "Some Author"
    ["tag1", "tag2"] config.vault folder config.frontmatter now fs

/-- Setting a file makes its contents readable back. -/
theorem getFile_setFile (k v : String) (l : List (String × String)) :
    getFile (setFile k v l) k = some v := by
  induction l with
  | nil => simp [setFile, getFile]
  | cons p rest ih =>
    by_cases h : (p.1 == k) = true
    · simp [setFile, h, getFile]
    · have h' : (p.1 == k) = false := by
        cases hx : (p.1 == k) with
        | false => rfl
        | true => exact absurd hx h
      simp only [setFile, h', Bool.false_eq_true, if_false]
      unfold getFile
      rw [List.find?_cons_of_neg _ (by simp [h'])]
      exact ih

/-- C10: for every URL classified as WebLink the written note uses the fixed
placeholder title, description, author and tags with an empty embed fragment;
the target path does not depend on the URL or the ignored size, so every
web-link note for the same folder lands at vault/folder/Some Title.md, and a
second invocation overwrites the first note there. -/
theorem weblink_placeholder_note (home url url2 folder : String) (w h w2 h2 : Nat)
    (config : Config) (now : String × String × String) (fs : FS) :
    let o : IOOutcome := ⟨true, true, true⟩
    let path := joinPath (joinPath (expanduser home config.vault) folder) "Some Title.md"
    let content := fun (u : String) =>
      format_frontmatter config.frontmatter now u "Some Author" ["tag1", "tag2"]
        ++ "\n" ++ "" ++ "\n\n## Description\n" ++ "Some Description"
    (handle_weblink_url o home url folder w h config now fs).1 = Except.ok ()
    ∧ getFile (handle_weblink_url o home url folder w h config now fs).2.files path
        = some (content url)
    ∧ getFile (handle_weblink_url o home url2 folder w2 h2 config now
          (handle_weblink_url o home url folder w h config now fs).2).2.files path
        = some (content url2) := by
  have hst : sanitize_filename "Some Title" = "Some Title" := by decide
  refine ⟨rfl, ?_, ?_⟩
  · simp [handle_weblink_url, create_markdown_file, hst, setFile_setFile, getFile_setFile]
  · simp [handle_weblink_url, create_markdown_file, hst, setFile_setFile, getFile_setFile]

/-- The double-quote character, one of the stop characters of the capture
group. -/
def quoteChar : Char := Char.ofNat 34

/-- The character class [^?&">] excluded by the capture group of the video-id
pattern: stop characters end the id. -/
def isStop (c : Char) : Bool :=
  c == '?' || c == '&' || c == quoteChar || c == '>'

/-- Anchored literal match: consume p from the head of l. -/
def tryLit : List Char → List Char → Option (List Char)
  | [], l => some l
  | _ :: _, [] => none
  | p :: ps, c :: cs => if p = c then tryLit ps cs else none

/-- The capture group [^?&">]+ : the maximal nonempty run of non-stop
characters at the head. -/
def idOf (l : List Char) : Option (List Char) :=
  let t := l.takeWhile (fun c => !(isStop c))
  if t.isEmpty then none else some t

theorem tryLit_some : ∀ (p l r : List Char), tryLit p l = some r ↔ l = p ++ r
  | [], l, r => by simp [tryLit, eq_comm]
  | a :: ps, [], r => by simp [tryLit]
  | a :: ps, c :: cs, r => by
    by_cases h : a = c
    · subst h
      simp only [tryLit, if_pos rfl, List.cons_append, List.cons.injEq, true_and]
      exact tryLit_some ps cs r
    · simp only [tryLit, if_neg h, List.cons_append]
      constructor
      · intro hc
        cases hc
      · intro hc
        injection hc with h1 h2
        exact absurd h1.symm h

theorem idOf_some (l t : List Char) (h : idOf l = some t) :
    t ≠ [] ∧ (∀ c ∈ t, isStop c = false) ∧ ∃ rest, l = t ++ rest := by
  unfold idOf at h
  by_cases he : (l.takeWhile (fun c => !(isStop c))).isEmpty = true
  · rw [if_pos he] at h
    cases h
  · rw [if_neg he] at h
    cases h
    refine ⟨by simpa [List.isEmpty_iff] using he, ?_, l.dropWhile (fun c => !(isStop c)), ?_⟩
    · intro c hc
      have := List.mem_takeWhile_imp hc
      simpa using this
    · exact (List.takeWhile_append_dropWhile _ l).symm

theorem idOf_exists (c : Char) (rest : List Char) (h : isStop c = false) :
    ∃ t, idOf (c :: rest) = some t := by
  unfold idOf
  simp only [List.takeWhile_cons, h, Bool.not_false, if_true]
  simp

/-- Forward payload of the combined prefix-then-capture step. -/
theorem litId_some (p l id : List Char) (h : (tryLit p l).bind idOf = some id) :
    id ≠ [] ∧ (∀ c ∈ id, isStop c = false) ∧ ∃ suf, l = p ++ id ++ suf := by
  cases ht : tryLit p l with
  | none => rw [ht] at h; cases h
  | some mid =>
    rw [ht] at h
    simp only [Option.some_bind] at h
    obtain ⟨h1, h2, suf, h3⟩ := idOf_some mid id h
    refine ⟨h1, h2, suf, ?_⟩
    rw [(tryLit_some p l mid).mp ht, h3, List.append_assoc]

/-- Backward existence of the combined prefix-then-capture step. -/
theorem litId_exists (p : List Char) (c : Char) (rest : List Char)
    (h : isStop c = false) : ∃ id, (tryLit p (p ++ c :: rest)).bind idOf = some id := by
  have ht : tryLit p (p ++ c :: rest) = some (c :: rest) := (tryLit_some p _ _).mpr rfl
  obtain ⟨t, hti⟩ := idOf_exists c rest h
  refine ⟨t, ?_⟩
  rw [ht]
  simp only [Option.some_bind]
  exact hti

/-- All decompositions l = x ++ '&' :: y with x newline-free, listed as the
suffixes y with the longest x first: the backtracking order of the greedy
optional group before v= (the dot of the pattern does not match a newline). -/
def ampSplits : List Char → List (List Char)
  | [] => []
  | c :: rest =>
    if c = '\n' then []
    else if c = '&' then ampSplits rest ++ [rest]
    else ampSplits rest

theorem ampSplits_mem (l y : List Char) :
    y ∈ ampSplits l ↔ ∃ x, l = x ++ '&' :: y ∧ '\n' ∉ x := by
  induction l with
  | nil =>
    simp only [ampSplits, List.not_mem_nil, false_iff, not_exists, not_and]
    intro x hx
    exact absurd hx (by cases x <;> simp)
  | cons c rest ih =>
    by_cases hnl : c = '\n'
    · subst hnl
      have e : ampSplits ('\n' :: rest) = [] := by
        show (if ('\n' : Char) = '\n' then ([] : List (List Char))
          else if ('\n' : Char) = '&' then ampSplits rest ++ [rest]
          else ampSplits rest) = []
        rw [if_pos rfl]
      rw [e]
      simp only [List.not_mem_nil, false_iff, not_exists, not_and]
      intro x hx
      cases x with
      | nil =>
        exfalso
        injection hx with h1 h2
        cases h1
      | cons a x' =>
        injection hx with h1 h2
        subst h1
        intro hm
        exact hm (List.mem_cons_self _ _)
    · by_cases ha : c = '&'
      · subst ha
        have e : ampSplits ('&' :: rest) = ampSplits rest ++ [rest] := by
          show (if ('&' : Char) = '\n' then ([] : List (List Char))
            else if ('&' : Char) = '&' then ampSplits rest ++ [rest]
            else ampSplits rest) = ampSplits rest ++ [rest]
          rw [if_neg (by decide), if_pos rfl]
        rw [e]
        simp only [List.mem_append, List.mem_singleton, ih]
        constructor
        · rintro (⟨x, hx, hnx⟩ | rfl)
          · refine ⟨'&' :: x, by simp [hx], ?_⟩
            simp only [List.mem_cons, not_or]
            exact ⟨by decide, hnx⟩
          · exact ⟨[], rfl, by simp⟩
        · rintro ⟨x, hx, hnx⟩
          cases x with
          | nil =>
            right
            injection hx with h1 h2
            rw [h2]
          | cons a x' =>
            left
            injection hx with h1 h2
            refine ⟨x', h2, fun hm => hnx ?_⟩
            exact List.mem_cons_of_mem a hm
      · have e : ampSplits (c :: rest) = ampSplits rest := by
          show (if c = '\n' then ([] : List (List Char))
            else if c = '&' then ampSplits rest ++ [rest]
            else ampSplits rest) = ampSplits rest
          rw [if_neg hnl, if_neg ha]
        rw [e]
        rw [ih]
        constructor
        · rintro ⟨x, hx, hnx⟩
          refine ⟨c :: x, by simp [hx], ?_⟩
          simp only [List.mem_cons, not_or]
          exact ⟨fun h => hnl h.symm, hnx⟩
        · rintro ⟨x, hx, hnx⟩
          cases x with
          | nil =>
            exfalso
            injection hx with h1 h2
            exact ha h1
          | cons a x' =>
            injection hx with h1 h2
            subst h1
            exact ⟨x', h2, fun hm => hnx (List.mem_cons_of_mem _ hm)⟩

/-- The continuation of the watch alternative once "watch?" is consumed: the
greedy optional group is tried longest-first via ampSplits, then omitted; each
candidate must continue with the literal v= and a nonempty capture. -/
def watchTail (l : List Char) : Option (List Char) :=
  match (ampSplits l).findSome? (fun y => (tryLit "v=".data y).bind idOf) with
  | some id => some id
  | none => (tryLit "v=".data l).bind idOf

/-- The texts the watch alternative can consume after "watch?". -/
def WatchPre (w : List Char) : Prop :=
  w = "v=".data ∨ ∃ x, w = x ++ '&' :: "v=".data ∧ '\n' ∉ x

theorem watchTail_some (l id : List Char) (h : watchTail l = some id) :
    id ≠ [] ∧ (∀ c ∈ id, isStop c = false)
      ∧ ∃ w suf, l = w ++ id ++ suf ∧ WatchPre w := by
  unfold watchTail at h
  cases hf : (ampSplits l).findSome? (fun y => (tryLit "v=".data y).bind idOf) with
  | some id0 =>
    rw [hf] at h
    cases h
    obtain ⟨y, hy, hfy⟩ := List.exists_of_findSome?_eq_some hf
    obtain ⟨x, hx, hnx⟩ := (ampSplits_mem l y).mp hy
    obtain ⟨h1, h2, suf, h3⟩ := litId_some _ _ _ hfy
    refine ⟨h1, h2, x ++ '&' :: "v=".data, suf, ?_, Or.inr ⟨x, rfl, hnx⟩⟩
    rw [hx, h3]
    simp [List.append_assoc]
  | none =>
    rw [hf] at h
    obtain ⟨h1, h2, suf, h3⟩ := litId_some _ _ _ h
    exact ⟨h1, h2, "v=".data, suf, h3, Or.inl rfl⟩

theorem watchTail_exists (l w : List Char) (c : Char) (rest : List Char)
    (hw : WatchPre w) (hl : l = w ++ c :: rest) (hc : isStop c = false) :
    ∃ id, watchTail l = some id := by
  unfold watchTail
  cases hf : (ampSplits l).findSome? (fun y => (tryLit "v=".data y).bind idOf) with
  | some id0 => exact ⟨id0, rfl⟩
  | none =>
    rcases hw with hw | ⟨x, hw, hnx⟩
    · subst hw
      subst hl
      obtain ⟨id, hid⟩ := litId_exists "v=".data c rest hc
      exact ⟨id, hid⟩
    · exfalso
      subst hw
      have hy : ("v=".data ++ c :: rest) ∈ ampSplits l := by
        refine (ampSplits_mem _ _).mpr ⟨x, ?_, hnx⟩
        rw [hl]
        simp [List.append_assoc]
      obtain ⟨id, hid⟩ := litId_exists "v=".data c rest hc
      have hiso : ((ampSplits l).findSome?
          (fun y => (tryLit "v=".data y).bind idOf)).isSome :=
        List.findSome?_isSome_iff.mpr ⟨_, hy, by rw [hid]; rfl⟩
      rw [hf] at hiso
      cases hiso

/-- The second inner alternative (embed|v|shorts)/ tried left to right, each
continuing with the capture group. -/
def tailAlt (l : List Char) : Option (List Char) :=
  ((tryLit "embed/".data l).bind idOf)
    <|> (((tryLit "v/".data l).bind idOf)
      <|> ((tryLit "shorts/".data l).bind idOf))

/-- One attempt of the full video-id pattern anchored at the head of l, with
the pattern's alternation preference order: the short-link host first, else
the youtube.com host followed by the watch alternative and then the path
alternatives. -/
def matchAt (l : List Char) : Option (List Char) :=
  ((tryLit "youtu.be/".data l).bind idOf)
    <|> ((tryLit "youtube.com/".data l).bind
      (fun rest => ((tryLit "watch?".data rest).bind watchTail) <|> tailAlt rest))

/-- Leftmost scan: the pattern is attempted at every position, earliest
first (the regex engine's leftmost-match rule). -/
def scanId : List Char → Option (List Char)
  | [] => none
  | c :: rest => matchAt (c :: rest) <|> scanId rest

/-- extract_video_id (main.rs): capture group 5 of the fixed video-URL
pattern under leftmost-first match semantics, or the extraction error. -/
def extract_video_id (url : String) : Except String String :=
  match scanId url.data with
  | some id => Except.ok (String.mk id)
  | none => Except.error "Failed to extract video ID from URL"

/-- The canonical video-URL prefixes described by the spec: the short-link
host, youtube.com with a watch query reaching v= (directly or after earlier
newline-free query text and an ampersand), and the embed/, v/, shorts/ path
forms. -/
inductive CanonPref : List Char → Prop where
  | shortlink : CanonPref "youtu.be/".data
  | watch_direct : CanonPref "youtube.com/watch?v=".data
  | watch_query (q : List Char) (hq : '\n' ∉ q) :
      CanonPref ("youtube.com/watch?".data ++ q ++ '&' :: "v=".data)
  | embed : CanonPref "youtube.com/embed/".data
  | vpath : CanonPref "youtube.com/v/".data
  | shorts : CanonPref "youtube.com/shorts/".data

/-- A URL contains a canonical video shape: an occurrence of a canonical
prefix immediately followed by at least one capturable character. -/
def CanonShape (url : String) : Prop :=
  ∃ pre p c rest, url.data = pre ++ p ++ c :: rest ∧ CanonPref p ∧ isStop c = false

theorem lit_embed : "youtube.com/embed/".data = "youtube.com/".data ++ "embed/".data := by
  decide

theorem lit_vpath : "youtube.com/v/".data = "youtube.com/".data ++ "v/".data := by
  decide

theorem lit_shorts : "youtube.com/shorts/".data = "youtube.com/".data ++ "shorts/".data := by
  decide

theorem lit_watch : "youtube.com/watch?".data = "youtube.com/".data ++ "watch?".data := by
  decide

theorem lit_watchv :
    "youtube.com/watch?v=".data = "youtube.com/".data ++ "watch?".data ++ "v=".data := by
  decide

theorem tailAlt_some (l id : List Char) (h : tailAlt l = some id) :
    id ≠ [] ∧ (∀ c ∈ id, isStop c = false)
      ∧ ∃ w suf, l = w ++ id ++ suf
        ∧ (w = "embed/".data ∨ w = "v/".data ∨ w = "shorts/".data) := by
  unfold tailAlt at h
  cases h1 : (tryLit "embed/".data l).bind idOf with
  | some id0 =>
    rw [h1] at h
    simp only [Option.some_orElse] at h
    cases h
    obtain ⟨a, b, suf, hdec⟩ := litId_some _ _ _ h1
    exact ⟨a, b, _, suf, hdec, Or.inl rfl⟩
  | none =>
    rw [h1] at h
    simp only [Option.none_orElse] at h
    cases h2 : (tryLit "v/".data l).bind idOf with
    | some id0 =>
      rw [h2] at h
      simp only [Option.some_orElse] at h
      cases h
      obtain ⟨a, b, suf, hdec⟩ := litId_some _ _ _ h2
      exact ⟨a, b, _, suf, hdec, Or.inr (Or.inl rfl)⟩
    | none =>
      rw [h2] at h
      simp only [Option.none_orElse] at h
      obtain ⟨a, b, suf, hdec⟩ := litId_some _ _ _ h
      exact ⟨a, b, _, suf, hdec, Or.inr (Or.inr rfl)⟩

theorem tailAlt_exists (w : List Char) (c : Char) (rest : List Char)
    (hw : w = "embed/".data ∨ w = "v/".data ∨ w = "shorts/".data)
    (hc : isStop c = false) : ∃ id, tailAlt (w ++ c :: rest) = some id := by
  unfold tailAlt
  rcases hw with rfl | rfl | rfl
  · obtain ⟨id, hid⟩ := litId_exists "embed/".data c rest hc
    rw [hid]
    exact ⟨id, by simp⟩
  · have h1 : (tryLit "embed/".data ("v/".data ++ c :: rest)).bind idOf = none := rfl
    obtain ⟨id, hid⟩ := litId_exists "v/".data c rest hc
    rw [h1, hid]
    exact ⟨id, by simp⟩
  · have h1 : (tryLit "embed/".data ("shorts/".data ++ c :: rest)).bind idOf = none := rfl
    have h2 : (tryLit "v/".data ("shorts/".data ++ c :: rest)).bind idOf = none := rfl
    obtain ⟨id, hid⟩ := litId_exists "shorts/".data c rest hc
    rw [h1, h2, hid]
    exact ⟨id, by simp⟩

theorem matchAt_some (l id : List Char) (h : matchAt l = some id) :
    id ≠ [] ∧ (∀ c ∈ id, isStop c = false)
      ∧ ∃ p suf, l = p ++ id ++ suf ∧ CanonPref p := by
  unfold matchAt at h
  cases h1 : (tryLit "youtu.be/".data l).bind idOf with
  | some id0 =>
    rw [h1] at h
    simp only [Option.some_orElse] at h
    cases h
    obtain ⟨a, b, suf, hdec⟩ := litId_some _ _ _ h1
    exact ⟨a, b, _, suf, hdec, CanonPref.shortlink⟩
  | none =>
    rw [h1] at h
    simp only [Option.none_orElse] at h
    cases h2 : tryLit "youtube.com/".data l with
    | none =>
      rw [h2] at h
      cases h
    | some rest =>
      rw [h2] at h
      simp only [Option.some_bind] at h
      have hl : l = "youtube.com/".data ++ rest := (tryLit_some _ _ _).mp h2
      cases h3 : (tryLit "watch?".data rest).bind watchTail with
      | some id0 =>
        rw [h3] at h
        simp only [Option.some_orElse] at h
        cases h
        cases h4 : tryLit "watch?".data rest with
        | none =>
          rw [h4] at h3
          cases h3
        | some rest2 =>
          rw [h4] at h3
          simp only [Option.some_bind] at h3
          have hr : rest = "watch?".data ++ rest2 := (tryLit_some _ _ _).mp h4
          obtain ⟨a, b, w, suf, hdec, hws⟩ := watchTail_some _ _ h3
          rcases hws with hws | ⟨x, hws, hnx⟩
          · refine ⟨a, b, "youtube.com/watch?v=".data, suf, ?_, CanonPref.watch_direct⟩
            rw [hl, hr, hdec, hws, lit_watchv]
            simp [List.append_assoc]
          · refine ⟨a, b, "youtube.com/watch?".data ++ x ++ '&' :: "v=".data, suf, ?_,
              CanonPref.watch_query x hnx⟩
            rw [hl, hr, hdec, hws, lit_watch]
            simp [List.append_assoc]
      | none =>
        rw [h3] at h
        simp only [Option.none_orElse] at h
        obtain ⟨a, b, w, suf, hdec, hws⟩ := tailAlt_some _ _ h
        rcases hws with rfl | rfl | rfl
        · refine ⟨a, b, "youtube.com/embed/".data, suf, ?_, CanonPref.embed⟩
          rw [hl, hdec, lit_embed]
          simp [List.append_assoc]
        · refine ⟨a, b, "youtube.com/v/".data, suf, ?_, CanonPref.vpath⟩
          rw [hl, hdec, lit_vpath]
          simp [List.append_assoc]
        · refine ⟨a, b, "youtube.com/shorts/".data, suf, ?_, CanonPref.shorts⟩
          rw [hl, hdec, lit_shorts]
          simp [List.append_assoc]

theorem matchAt_exists (p : List Char) (c : Char) (rest : List Char)
    (hp : CanonPref p) (hc : isStop c = false) :
    ∃ id, matchAt (p ++ c :: rest) = some id := by
  unfold matchAt
  cases hp with
  | shortlink =>
    obtain ⟨id, hid⟩ := litId_exists "youtu.be/".data c rest hc
    rw [hid]
    exact ⟨id, by simp⟩
  | watch_direct =>
    cases h1 : (tryLit "youtu.be/".data ("youtube.com/watch?v=".data ++ c :: rest)).bind idOf with
    | some id0 =>
      exact ⟨id0, by simp⟩
    | none =>
      have h2 : tryLit "youtube.com/".data ("youtube.com/watch?v=".data ++ c :: rest)
          = some ("watch?".data ++ ("v=".data ++ c :: rest)) := by
        apply (tryLit_some _ _ _).mpr
        rw [lit_watchv]
        simp [List.append_assoc]
      rw [h2]
      simp only [Option.some_bind, Option.none_orElse]
      have h4 : tryLit "watch?".data ("watch?".data ++ ("v=".data ++ c :: rest))
          = some ("v=".data ++ c :: rest) := (tryLit_some _ _ _).mpr rfl
      rw [h4]
      simp only [Option.some_bind]
      obtain ⟨id, hid⟩ := watchTail_exists ("v=".data ++ c :: rest) "v=".data c rest
        (Or.inl rfl) rfl hc
      rw [hid]
      exact ⟨id, by simp⟩
  | watch_query q hq =>
    cases h1 : (tryLit "youtu.be/".data
        (("youtube.com/watch?".data ++ q ++ '&' :: "v=".data) ++ c :: rest)).bind idOf with
    | some id0 =>
      exact ⟨id0, by simp⟩
    | none =>
      have h2 : tryLit "youtube.com/".data
          (("youtube.com/watch?".data ++ q ++ '&' :: "v=".data) ++ c :: rest)
          = some ("watch?".data ++ ((q ++ '&' :: "v=".data) ++ c :: rest)) := by
        apply (tryLit_some _ _ _).mpr
        rw [lit_watch]
        simp [List.append_assoc]
      rw [h2]
      simp only [Option.some_bind, Option.none_orElse]
      have h4 : tryLit "watch?".data ("watch?".data ++ ((q ++ '&' :: "v=".data) ++ c :: rest))
          = some ((q ++ '&' :: "v=".data) ++ c :: rest) := (tryLit_some _ _ _).mpr rfl
      rw [h4]
      simp only [Option.some_bind]
      obtain ⟨id, hid⟩ := watchTail_exists ((q ++ '&' :: "v=".data) ++ c :: rest)
        (q ++ '&' :: "v=".data) c rest (Or.inr ⟨q, rfl, hq⟩) rfl hc
      rw [hid]
      exact ⟨id, by simp⟩
  | embed =>
    cases h1 : (tryLit "youtu.be/".data ("youtube.com/embed/".data ++ c :: rest)).bind idOf with
    | some id0 =>
      exact ⟨id0, by simp⟩
    | none =>
      have h2 : tryLit "youtube.com/".data ("youtube.com/embed/".data ++ c :: rest)
          = some ("embed/".data ++ c :: rest) := by
        apply (tryLit_some _ _ _).mpr
        rw [lit_embed]
        simp [List.append_assoc]
      rw [h2]
      simp only [Option.some_bind, Option.none_orElse]
      have h3 : (tryLit "watch?".data ("embed/".data ++ c :: rest)).bind watchTail = none := rfl
      rw [h3]
      simp only [Option.none_orElse]
      exact tailAlt_exists "embed/".data c rest (Or.inl rfl) hc
  | vpath =>
    cases h1 : (tryLit "youtu.be/".data ("youtube.com/v/".data ++ c :: rest)).bind idOf with
    | some id0 =>
      exact ⟨id0, by simp⟩
    | none =>
      have h2 : tryLit "youtube.com/".data ("youtube.com/v/".data ++ c :: rest)
          = some ("v/".data ++ c :: rest) := by
        apply (tryLit_some _ _ _).mpr
        rw [lit_vpath]
        simp [List.append_assoc]
      rw [h2]
      simp only [Option.some_bind, Option.none_orElse]
      have h3 : (tryLit "watch?".data ("v/".data ++ c :: rest)).bind watchTail = none := rfl
      rw [h3]
      simp only [Option.none_orElse]
      exact tailAlt_exists "v/".data c rest (Or.inr (Or.inl rfl)) hc
  | shorts =>
    cases h1 : (tryLit "youtu.be/".data ("youtube.com/shorts/".data ++ c :: rest)).bind idOf with
    | some id0 =>
      exact ⟨id0, by simp⟩
    | none =>
      have h2 : tryLit "youtube.com/".data ("youtube.com/shorts/".data ++ c :: rest)
          = some ("shorts/".data ++ c :: rest) := by
        apply (tryLit_some _ _ _).mpr
        rw [lit_shorts]
        simp [List.append_assoc]
      rw [h2]
      simp only [Option.some_bind, Option.none_orElse]
      have h3 : (tryLit "watch?".data ("shorts/".data ++ c :: rest)).bind watchTail = none := rfl
      rw [h3]
      simp only [Option.none_orElse]
      exact tailAlt_exists "shorts/".data c rest (Or.inr (Or.inr rfl)) hc

theorem matchAt_nil : matchAt [] = none := rfl

theorem scanId_of_matchAt (l id : List Char) (h : matchAt l = some id) :
    ∃ idr, scanId l = some idr := by
  cases l with
  | nil =>
    rw [matchAt_nil] at h
    cases h
  | cons a as =>
    refine ⟨id, ?_⟩
    show (matchAt (a :: as) <|> scanId as) = some id
    rw [h]
    simp

theorem scanId_some (l id : List Char) (h : scanId l = some id) :
    id ≠ [] ∧ (∀ c ∈ id, isStop c = false)
      ∧ ∃ pre p suf, l = pre ++ p ++ id ++ suf ∧ CanonPref p := by
  induction l with
  | nil => cases h
  | cons a as ih =>
    have hdef : scanId (a :: as) = (matchAt (a :: as) <|> scanId as) := rfl
    rw [hdef] at h
    cases h1 : matchAt (a :: as) with
    | some id0 =>
      rw [h1] at h
      simp only [Option.some_orElse] at h
      cases h
      obtain ⟨ha, hb, p, suf, hdec, hp⟩ := matchAt_some _ _ h1
      exact ⟨ha, hb, [], p, suf, by simpa using hdec, hp⟩
    | none =>
      rw [h1] at h
      simp only [Option.none_orElse] at h
      obtain ⟨ha, hb, pre, p, suf, hdec, hp⟩ := ih h
      refine ⟨ha, hb, a :: pre, p, suf, ?_, hp⟩
      simp [hdec]

theorem scanId_exists (pre p : List Char) (c : Char) (rest : List Char)
    (hp : CanonPref p) (hc : isStop c = false) :
    ∃ id, scanId (pre ++ p ++ c :: rest) = some id := by
  induction pre with
  | nil =>
    obtain ⟨id, hid⟩ := matchAt_exists p c rest hp hc
    show ∃ id, scanId (p ++ c :: rest) = some id
    exact scanId_of_matchAt _ _ hid
  | cons a pre' ih =>
    show ∃ id, (matchAt ((a :: pre') ++ p ++ c :: rest)
      <|> scanId (pre' ++ p ++ c :: rest)) = some id
    cases h1 : matchAt ((a :: pre') ++ p ++ c :: rest) with
    | some id0 => exact ⟨id0, by simp⟩
    | none =>
      simp only [Option.none_orElse]
      exact ih

/-- C8: the identifier extractor succeeds exactly on the URLs containing a
canonical video-sharing shape — the short-link host youtu.be/, or youtube.com
with a watch?v= query (directly or after earlier newline-free query text and
an ampersand), or the embed/, v/, shorts/ path forms — followed by at least
one capturable character (an optional query suffix may follow the captured
identifier); on success the returned identifier is exactly the capture group
following the matched canonical prefix in the URL; every other URL yields the
identifier-not-found error; in particular the example watch URL extracts
"abc123". -/
theorem extract_video_id_spec :
    (∀ url : String, (∃ id, extract_video_id url = Except.ok id) ↔ CanonShape url)
    ∧ (∀ url id, extract_video_id url = Except.ok id →
        id.data ≠ [] ∧ (∀ c ∈ id.data, isStop c = false)
          ∧ ∃ pre p suf, url.data = pre ++ p ++ id.data ++ suf ∧ CanonPref p)
    ∧ (∀ url : String, (∃ id, extract_video_id url = Except.ok id)
        ∨ extract_video_id url = Except.error "Failed to extract video ID from URL")
    ∧ extract_video_id "https://www.youtube.com/watch?v=abc123" = Except.ok "abc123" := by
  have hok : ∀ url id, extract_video_id url = Except.ok id →
      scanId url.data = some id.data := by
    intro url id h
    unfold extract_video_id at h
    cases hs : scanId url.data with
    | none =>
      rw [hs] at h
      cases h
    | some l0 =>
      rw [hs] at h
      cases h
      rfl
  refine ⟨?_, ?_, ?_, ?_⟩
  · intro url
    constructor
    · rintro ⟨id, hid⟩
      have hs := hok url id hid
      obtain ⟨ha, hb, pre, p, suf, hdec, hp⟩ := scanId_some _ _ hs
      cases hidd : id.data with
      | nil => exact absurd hidd ha
      | cons c id' =>
        refine ⟨pre, p, c, id' ++ suf, ?_, hp,
          hb c (by rw [hidd]; exact List.mem_cons_self _ _)⟩
        rw [hdec, hidd]
        simp [List.append_assoc]
    · rintro ⟨pre, p, c, rest, hdec, hp, hc⟩
      obtain ⟨id, hid⟩ := scanId_exists pre p c rest hp hc
      have hsc : scanId url.data = some id := by rw [hdec]; exact hid
      exact ⟨String.mk id, by simp [extract_video_id, hsc]⟩
  · intro url id h
    have hs := hok url id h
    exact scanId_some _ _ hs
  · intro url
    unfold extract_video_id
    cases hs : scanId url.data with
    | none => exact Or.inr rfl
    | some l0 => exact Or.inl ⟨String.mk l0, rfl⟩
  · rfl

/-- C8 witness: the characterization applied at a concrete short-link URL,
whose successful extraction exhibits its canonical shape. -/
theorem extract_video_id_spec_witness : CanonShape "https://youtu.be/xyz" :=
  (extract_video_id_spec.1 "https://youtu.be/xyz").mp ⟨"xyz", rfl⟩
